import Mathlib

/-!
Shallow embedding of the reference-name core of `radicle-git`:

* `radicle-git-ext/src/reference/name.rs` — the validated name types
  `RefLike` (SingleName), `OneLevel` (CollapsedName), `Qualified`
  (QualifiedName) and their conversions;
* `radicle-git-types/src/reference.rs` — `RefsCategory`, the generic
  `Reference` builder, and `SymbolicRef`.

Rust `String` values are embedded as `List Char`; the interior text of each
validated wrapper type is embedded directly, so every conversion below is a
function on `Str := List Char` translated from the corresponding Rust source.
-/

/-- Embedding of Rust interior strings as lists of characters. -/
abbrev Str := List Char

/-- Convert a Lean string literal to the embedded representation. -/
def strList (s : String) : Str := s.toList

/-- The path separator character used throughout the reference grammar. -/
def slash : Char := '/'

/-- The dot character, used by the grammar validator. -/
def dot : Char := '.'

/-- Embedding of Rust `str::split('/')`: splits at every separator, keeping
empty pieces, and yields `[""]` on the empty string. -/
def splitOnSlash : Str → List Str
  | [] => [[]]
  | c :: rest =>
    if c = slash then [] :: splitOnSlash rest
    else
      match splitOnSlash rest with
      | [] => [[c]]
      | s :: ss => (c :: s) :: ss

/-- Embedding of `Vec::join("/")`: interleave a single separator between the
pieces. -/
def joinSlash : List Str → Str
  | [] => []
  | [s] => s
  | s :: ss => s ++ slash :: joinSlash ss

/-- Embedding of Rust `str::strip_prefix`: returns the remainder when the
first argument is a textual prefix of the second. -/
def stripPre : Str → Str → Option Str
  | [], s => some s
  | _ :: _, [] => none
  | p :: ps, c :: cs => if p = c then stripPre ps cs else none

/-- Embedding of `base.strip_suffix('/').unwrap_or(base)` from
`RefLike::strip_prefix`: drop one trailing separator if present. -/
def stripSufSlash (s : Str) : Str :=
  if s.getLast? = some slash then s.dropLast else s

/-- Embedding of `StripPrefixError` (`name.rs` lines 36-44): `improper` is
`ImproperPrefix` ("prefix is equal to path"), `notPre` is `NotPrefix`
("not prefixed by given path"). -/
inductive StripPfxError
  | improper
  | notPre
deriving DecidableEq

/-- Embedding of `RefLike::join` (`name.rs` lines 64-68):
`format!("{}/{}", self.0, other.into().0)`, with no re-validation. -/
def RefLike.join (a b : Str) : Str := a ++ slash :: b

/-- Embedding of `RefLike::strip_prefix` (`name.rs` lines 82-95): normalise
`base` by dropping one trailing `/` and appending `/`, then strip that text
from the front of `self`; a failed match is `NotPrefix`, an empty remainder
is `ImproperPrefix`. -/
def RefLike.stripPfx (self base : Str) : Except StripPfxError Str :=
  let b := stripSufSlash base ++ [slash]
  match stripPre b self with
  | none => Except.error StripPfxError.notPre
  | some path =>
    if path = [] then Except.error StripPfxError.improper else Except.ok path

/-- Embedding of `impl From<RefLike> for OneLevel` (`name.rs` lines 361-369):
if the text starts with the literal `refs/`, split on `/`, skip the first two
components and re-join; otherwise keep the text unchanged. -/
def OneLevel.fromRefLike (path : Str) : Str :=
  if List.isPrefixOf (strList "refs/") path then
    joinSlash ((splitOnSlash path).drop 2)
  else path

/-- Embedding of `impl From<RefLike> for Qualified` (`name.rs` lines 452-460):
keep text starting with `refs/` unchanged, otherwise prepend `refs/heads/`. -/
def Qualified.fromRefLike (path : Str) : Str :=
  if List.isPrefixOf (strList "refs/") path then path
  else strList "refs/heads/" ++ path

/-- Embedding of `OneLevel::from_qualified` (`name.rs` lines 319-340): strip a
leading `refs/` if present, split on `/`; a single remaining component is the
whole name (category absent, routed through the `OneLevel` conversion), while
two or more components yield the first as category and the re-joined rest as
the name. The Rust `None => unreachable!()` branch of the first `next()` is
the `[]` case, which `splitOnSlash` never produces. -/
def OneLevel.fromQualified (q : Str) : Str × Option Str :=
  let path := (stripPre (strList "refs/") q).getD q
  match splitOnSlash path with
  | [] => ([], none)
  | [category] => (OneLevel.fromRefLike category, none)
  | category :: head :: rest => (joinSlash (head :: rest), some category)

/-- Embedding of `RefsCategory` (`radicle-git-types/src/reference.rs` lines
28-37). -/
inductive RefsCategory
  | heads
  | rad
  | tags
  | notes
  | cobs
  | unknown (cat : Str)
deriving DecidableEq

/-- Embedding of `impl Display for RefsCategory` (lines 64-75). -/
def RefsCategory.render : RefsCategory → Str
  | .heads => strList "heads"
  | .rad => strList "rad"
  | .tags => strList "tags"
  | .notes => strList "notes"
  | .cobs => strList "cobs"
  | .unknown cat => cat

/-- Embedding of the generic `Reference` struct (`radicle-git-types/src/
reference.rs` lines 120-130). The Rust field `namespace` is spelled `nspace`
here because `namespace` is a Lean keyword. -/
structure Reference (N R C : Type) where
  remote : Option R
  category : RefsCategory
  name : C
  nspace : Option N

/-- Embedding of `Reference::with_remote` (lines 139-144): replace only the
remote. -/
def Reference.with_remote {N R C : Type} (r : Reference N R C)
    (remote : Option R) : Reference N R C :=
  ⟨remote, r.category, r.name, r.nspace⟩

/-- Embedding of `Reference::set_remote` (lines 146-148), modelled as the
post-state of the mutation. -/
def Reference.set_remote {N R C : Type} (r : Reference N R C)
    (remote : Option R) : Reference N R C :=
  ⟨remote, r.category, r.name, r.nspace⟩

/-- Embedding of `Reference::with_namespace` (lines 157-168): replace only
the namespace, possibly at a different namespace type. -/
def Reference.with_namespace {N R C N2 : Type} (r : Reference N R C)
    (ns : Option N2) : Reference N2 R C :=
  ⟨r.remote, r.category, r.name, ns⟩

/-- Embedding of `Reference::with_name` (lines 171-176): replace only the
name. -/
def Reference.with_name {N R C : Type} (r : Reference N R C)
    (name : C) : Reference N R C :=
  ⟨r.remote, r.category, name, r.nspace⟩

/-- Embedding of `Reference::set_name` (lines 179-181), modelled as the
post-state of the mutation. -/
def Reference.set_name {N R C : Type} (r : Reference N R C)
    (name : C) : Reference N R C :=
  ⟨r.remote, r.category, name, r.nspace⟩

/-- Embedding of `impl From<&Reference<N, R, One>> for ext::RefLike` (lines
329-350), instantiated at already-rendered namespace/remote text (`AsNamespace`
and `AsRemote` are identity on the rendered text): start from `refs`, join
`namespaces/<ns>/refs` when a namespace is present, join `remotes/<remote>`
when a remote is present, join the rendered category, and finally join the
`OneLevel` conversion of the name. -/
def Reference.toRefLike (r : Reference Str Str Str) : Str :=
  let refl1 := strList "refs"
  let refl2 :=
    match r.nspace with
    | some ns =>
      RefLike.join (RefLike.join (RefLike.join refl1 (strList "namespaces")) ns)
        (strList "refs")
    | none => refl1
  let refl3 :=
    match r.remote with
    | some rem => RefLike.join (RefLike.join refl2 (strList "remotes")) rem
    | none => refl2
  RefLike.join (RefLike.join refl3 r.category.render) (OneLevel.fromRefLike r.name)

/-- Errors reported by the external repository engine, as used by
`SymbolicRef::create` (spec §6: NotFound, AlreadyExists, opaque failures). -/
inductive GitErr
  | notFound
  | alreadyExists
  | other (msg : Str)
deriving DecidableEq

/-- One observable call against the external repository engine, used to state
in which order `SymbolicRef::create` performs its effects. `resolve` is the
read-only `refname_to_id` query; `ensureLog` and `symbolic` are the writes. -/
inductive RepoOp
  | resolve (name : Str)
  | ensureLog (name : Str)
  | symbolic (source target : Str) (force : Bool) (logMsg : Str)
deriving DecidableEq

/-- The external repository engine as consumed by `SymbolicRef::create`: the
three `git2` entry points the function calls, each allowed to fail. -/
structure Repo where
  refnameToId : Str → Except GitErr Nat
  referenceEnsureLog : Str → Except GitErr Unit
  referenceSymbolic : Str → Str → Bool → Str → Except GitErr Str

/-- Embedding of the `SymbolicRef` struct (`radicle-git-types/src/reference.rs`
lines 509-517). -/
structure SymbolicRef (S T : Type) where
  source : S
  target : T
  force : Bool

/-- The reflog message built by `SymbolicRef::create`:
`format!("creating symbolic ref {} -> {}", source, target)`. -/
def symbolicReflogMsg (source target : Str) : Str :=
  strList "creating symbolic ref " ++ source ++ strList " -> " ++ target

/-- Embedding of `SymbolicRef::create` (lines 530-549): render source and
target, resolve the target (propagating failure), ensure the source reflog
(propagating failure), then create the symbolic reference. The first
component of the result is the ordered trace of engine calls performed. -/
def SymbolicRef.create {S T : Type} (sr : SymbolicRef S T)
    (intoS : S → Str) (intoT : T → Str) (repo : Repo) :
    List RepoOp × Except GitErr Str :=
  let source := intoS sr.source
  let target := intoT sr.target
  let msg := symbolicReflogMsg source target
  match repo.refnameToId target with
  | Except.error e => ([RepoOp.resolve target], Except.error e)
  | Except.ok _ =>
    match repo.referenceEnsureLog source with
    | Except.error e =>
      ([RepoOp.resolve target, RepoOp.ensureLog source], Except.error e)
    | Except.ok _ =>
      ([RepoOp.resolve target, RepoOp.ensureLog source,
        RepoOp.symbolic source target sr.force msg],
       repo.referenceSymbolic source target sr.force msg)

/-- Modelled from the spec: two consecutive dots somewhere in the text
(§4.1 of the grammar rules). -/
def hasDotDot : Str → Bool
  | c1 :: c2 :: rest => (c1 = dot && c2 = dot) || hasDotDot (c2 :: rest)
  | _ => false

/-- Modelled from the spec: characters the reference grammar forbids anywhere
(§4.1): control bytes, space, `~`, `^`, `:`, `?`, `*`, `[`, `\`. -/
def badRefChar (c : Char) : Bool :=
  c.toNat < 32 || c.toNat = 127 || c = ' ' || c = '~' || c = '^'
    || c = ':' || c = '?' || c = '*' || c = '[' || c = '\\'

/-- Modelled from the spec: one segment check of the external grammar
validator `check::ref_format` (§4.1), whose implementation is not among the
reviewed sources. A segment is non-empty, does not start with `.`, does not
end with `.lock`, has no two consecutive dots, and has no forbidden
character. -/
def validSegment (seg : Str) : Bool :=
  decide (seg ≠ [])
  && decide (seg.head? ≠ some dot)
  && !(List.isSuffixOf (strList ".lock") seg)
  && !(hasDotDot seg)
  && seg.all (fun c => !(badRefChar c))

/-- Modelled from the spec: the substring `@{` somewhere in the text (§4.1). -/
def hasAtBrace : Str → Bool
  | c1 :: c2 :: rest => (c1 = '@' && c2 = Char.ofNat 123) || hasAtBrace (c2 :: rest)
  | _ => false

/-- Modelled from the spec: the external grammar validator `check::ref_format`
(§4.1) at the options used by `RefLike::try_from` (`allow_onelevel: true`,
`allow_pattern: false`); its implementation is not among the reviewed sources.
The name is non-empty, at most 1024 bytes, every `/`-delimited segment passes
`validSegment` (in particular no empty segment, hence no consecutive slashes
and, with the explicit last-character checks, no leading or trailing `/`),
the name ends in neither `.` nor `/`, and `@{` occurs nowhere. -/
def validRefLike (s : Str) : Bool :=
  decide (s ≠ [])
  && decide (s.length ≤ 1024)
  && (splitOnSlash s).all validSegment
  && decide (s.getLast? ≠ some dot)
  && decide (s.getLast? ≠ some slash)
  && !(hasAtBrace s)

/-! Helper lemmas about the embedded string operations. -/

theorem splitOnSlash_cons_slash (s : Str) :
    splitOnSlash (slash :: s) = [] :: splitOnSlash s := by
  simp [splitOnSlash]

theorem splitOnSlash_cons_ne (c : Char) (s : Str) (h : ¬ c = slash) :
    splitOnSlash (c :: s) =
      match splitOnSlash s with
      | [] => [[c]]
      | t :: ts => (c :: t) :: ts := by
  simp [splitOnSlash, h]

theorem splitOnSlash_ne_nil (s : Str) : splitOnSlash s ≠ [] := by
  cases s with
  | nil => simp [splitOnSlash]
  | cons c rest =>
    by_cases h : c = slash
    · subst h
      rw [splitOnSlash_cons_slash]
      simp
    · rw [splitOnSlash_cons_ne c rest h]
      cases h2 : splitOnSlash rest <;> simp

theorem joinSlash_cons_cons (a b : Str) (l : List Str) :
    joinSlash (a :: b :: l) = a ++ slash :: joinSlash (b :: l) := rfl

theorem joinSlash_splitOnSlash (s : Str) : joinSlash (splitOnSlash s) = s := by
  induction s with
  | nil => rfl
  | cons c rest ih =>
    obtain ⟨t, ts, ht⟩ := List.exists_cons_of_ne_nil (splitOnSlash_ne_nil rest)
    by_cases h : c = slash
    · subst h
      rw [splitOnSlash_cons_slash, ht, joinSlash_cons_cons]
      simp only [List.nil_append, List.cons.injEq, true_and]
      rw [← ht, ih]
    · rw [splitOnSlash_cons_ne c rest h, ht]
      show joinSlash ((c :: t) :: ts) = c :: rest
      rw [ht] at ih
      cases ts with
      | nil =>
        simp only [joinSlash] at ih ⊢
        rw [ih]
      | cons u us =>
        rw [joinSlash_cons_cons] at ih ⊢
        simp only [List.cons_append, List.cons.injEq, true_and]
        exact ih

theorem splitOnSlash_append (seg rest : Str) (h : slash ∉ seg) :
    splitOnSlash (seg ++ slash :: rest) = seg :: splitOnSlash rest := by
  induction seg with
  | nil =>
    simp [splitOnSlash]
  | cons c cs ih =>
    have hc : ¬ (c = slash) := fun hc => h (hc ▸ List.mem_cons_self c cs)
    have hcs : slash ∉ cs := fun hm => h (List.mem_cons_of_mem c hm)
    rw [List.cons_append, splitOnSlash_cons_ne c _ hc, ih hcs]

theorem splitOnSlash_no_slash (s : Str) (h : slash ∉ s) : splitOnSlash s = [s] := by
  induction s with
  | nil => rfl
  | cons c cs ih =>
    have hc : ¬ (c = slash) := fun hc => h (hc ▸ List.mem_cons_self c cs)
    have hcs : slash ∉ cs := fun hm => h (List.mem_cons_of_mem c hm)
    rw [splitOnSlash_cons_ne c _ hc, ih hcs]

theorem splitOnSlash_mem_no_slash (s : Str) :
    ∀ seg ∈ splitOnSlash s, slash ∉ seg := by
  induction s with
  | nil =>
    intro seg hseg
    simp only [splitOnSlash, List.mem_singleton] at hseg
    simp [hseg]
  | cons c rest ih =>
    intro seg hseg
    by_cases h : c = slash
    · subst h
      rw [splitOnSlash_cons_slash] at hseg
      rcases List.mem_cons.mp hseg with h1 | h1
      · simp [h1]
      · exact ih seg h1
    · obtain ⟨t, ts, ht⟩ := List.exists_cons_of_ne_nil (splitOnSlash_ne_nil rest)
      have h1 : splitOnSlash (c :: rest) = (c :: t) :: ts := by
        rw [splitOnSlash_cons_ne c rest h, ht]
      rw [h1] at hseg
      rcases List.mem_cons.mp hseg with h2 | h2
      · subst h2
        intro hmem
        rcases List.mem_cons.mp hmem with h3 | h3
        · exact h h3.symm
        · exact ih t (ht ▸ List.mem_cons_self t ts) h3
      · exact ih seg (ht ▸ List.mem_cons_of_mem t h2)

theorem stripPre_append (p r : Str) : stripPre p (p ++ r) = some r := by
  induction p with
  | nil => rfl
  | cons c cs ih => simp [stripPre, ih]

theorem isPrefixOf_append_self (p s : Str) : List.isPrefixOf p (p ++ s) = true := by
  induction p with
  | nil => simp [List.isPrefixOf]
  | cons c cs ih => simp [List.isPrefixOf, ih]

theorem mem_of_isPrefixOf {p s : Str} (h : List.isPrefixOf p s = true)
    {c : Char} (hc : c ∈ p) : c ∈ s := by
  induction p generalizing s with
  | nil => cases hc
  | cons a as ih =>
    cases s with
    | nil => simp [List.isPrefixOf] at h
    | cons b bs =>
      simp only [List.isPrefixOf, Bool.and_eq_true, beq_iff_eq] at h
      rcases List.mem_cons.mp hc with h1 | h1
      · subst h1
        exact h.1 ▸ List.mem_cons_self b bs
      · exact List.mem_cons_of_mem b (ih h.2 h1)

theorem not_isPrefixOf_refs_of_no_slash {s : Str} (h : slash ∉ s) :
    List.isPrefixOf (strList "refs/") s = false := by
  by_contra hne
  have htrue : List.isPrefixOf (strList "refs/") s = true := by
    cases hb : List.isPrefixOf (strList "refs/") s
    · exact absurd hb hne
    · rfl
  exact h (mem_of_isPrefixOf htrue (by decide))

theorem valid_ne_nil {s : Str} (h : validRefLike s = true) : s ≠ [] := by
  simp only [validRefLike, Bool.and_eq_true, decide_eq_true_eq] at h
  exact h.1.1.1.1.1

theorem valid_last_ne_slash {s : Str} (h : validRefLike s = true) :
    s.getLast? ≠ some slash := by
  simp only [validRefLike, Bool.and_eq_true, decide_eq_true_eq] at h
  exact h.1.2

/-! Shared lemmas about the `OneLevel` conversion. -/

theorem collapse_refs_seg (seg rest : Str) (h : slash ∉ seg) :
    OneLevel.fromRefLike (strList "refs/" ++ (seg ++ slash :: rest)) = rest := by
  have hshape : strList "refs/" ++ (seg ++ slash :: rest)
      = strList "refs" ++ slash :: (seg ++ slash :: rest) := rfl
  have hpre : List.isPrefixOf (strList "refs/")
      (strList "refs/" ++ (seg ++ slash :: rest)) = true :=
    isPrefixOf_append_self _ _
  rw [OneLevel.fromRefLike, if_pos hpre, hshape,
    splitOnSlash_append _ _ (by decide), splitOnSlash_append _ _ h]
  show joinSlash (splitOnSlash rest) = rest
  exact joinSlash_splitOnSlash rest

theorem collapse_two_seg (seg : Str) (h : slash ∉ seg) :
    OneLevel.fromRefLike (strList "refs/" ++ seg) = [] := by
  have hshape : strList "refs/" ++ seg = strList "refs" ++ slash :: seg := rfl
  have hpre : List.isPrefixOf (strList "refs/") (strList "refs/" ++ seg) = true :=
    isPrefixOf_append_self _ _
  rw [OneLevel.fromRefLike, if_pos hpre, hshape,
    splitOnSlash_append _ _ (by decide), splitOnSlash_no_slash _ h]
  rfl

theorem collapse_unchanged (s : Str)
    (h : List.isPrefixOf (strList "refs/") s = false) :
    OneLevel.fromRefLike s = s := by
  simp [OneLevel.fromRefLike, h]

/-- C1: the claim states that the `OneLevel` conversion removes `refs/` plus
the following segment only when the original had at least three segments, and
otherwise (e.g. for the two-segment name `refs/heads`) leaves the text
unchanged. The code (`impl From<RefLike> for OneLevel`) instead drops the
first two components of every text starting with `refs/`, so the valid
two-segment name `refs/heads` collapses to the empty text, not to itself. -/
theorem C1_counterexample :
    validRefLike (strList "refs/heads") = true
    ∧ OneLevel.fromRefLike (strList "refs/heads") ≠ strList "refs/heads" := by
  constructor
  · decide
  · decide

/-- C1 (amended): for every name of the shape `refs/<seg>/<rest>` the
conversion removes the leading `refs/` segment plus the segment after it,
leaving `<rest>`; for a two-segment name `refs/<seg>` it leaves the empty
text (not the original text); a name not starting with the literal `refs/`
is unchanged. -/
theorem C1_collapse_amended (seg rest : Str) (h : slash ∉ seg) :
    OneLevel.fromRefLike (strList "refs/" ++ (seg ++ slash :: rest)) = rest
  ∧ OneLevel.fromRefLike (strList "refs/" ++ seg) = []
  ∧ ∀ s : Str, List.isPrefixOf (strList "refs/") s = false →
      OneLevel.fromRefLike s = s :=
  ⟨collapse_refs_seg seg rest h, collapse_two_seg seg h,
    fun s hs => collapse_unchanged s hs⟩

/-- C1 (amended) witness at `seg = heads`, `rest = next`: collapsing
`refs/heads/next` gives `next`, collapsing `refs/heads` gives the empty
text, and `mistress` is unchanged. -/
theorem C1_collapse_amended_witness :
    OneLevel.fromRefLike (strList "refs/" ++ (strList "heads" ++ slash :: strList "next"))
      = strList "next"
    ∧ OneLevel.fromRefLike (strList "refs/" ++ strList "heads") = []
    ∧ OneLevel.fromRefLike (strList "mistress") = strList "mistress" := by
  have h := C1_collapse_amended (strList "heads") (strList "next") (by decide)
  exact ⟨h.1, h.2.1, h.2.2 (strList "mistress") (by decide)⟩

/-- C2: the claim (and the doc comment of `RefLike::strip_prefix` together
with the `ImproperPrefix` variant message "prefix is equal to path") says
`stripPrefix(x, x)` fails with `ImproperPrefix`. The code normalises `base`
to `base + "/"` before matching, and `x` never starts with `x + "/"`, so
`strip_prefix(x, x)` actually returns `NotPrefix`: evaluated here at the
valid name `refs/heads`. The second part of the claim holds: an unrelated
base fails with `NotPrefix`. -/
theorem C2_code_eval :
    RefLike.stripPfx (strList "refs/heads") (strList "refs/heads")
      = Except.error StripPfxError.notPre
  ∧ RefLike.stripPfx (strList "refs/heads") (strList "unrelated")
      = Except.error StripPfxError.notPre
  ∧ validRefLike (strList "refs/heads") = true
  ∧ validRefLike (strList "unrelated") = true := by
  exact ⟨rfl, rfl, by decide, by decide⟩

/-- C4: converting a SingleName to QualifiedName and then to CollapsedName
yields the same CollapsedName as converting directly (proved for every
interior text, in particular every valid SingleName). -/
theorem C4_collapse_of_qualified (p : Str) :
    OneLevel.fromRefLike (Qualified.fromRefLike p) = OneLevel.fromRefLike p := by
  cases h : List.isPrefixOf (strList "refs/") p with
  | true =>
    rw [Qualified.fromRefLike, if_pos h]
  | false =>
    rw [Qualified.fromRefLike, if_neg (by simp [h])]
    rw [collapse_unchanged p h]
    have hshape : strList "refs/heads/" ++ p
        = strList "refs/" ++ (strList "heads" ++ slash :: p) := rfl
    rw [hshape, collapse_refs_seg _ _ (by decide)]

/-- C6: the QualifiedName conversion leaves the text unchanged exactly when
it already starts with the literal `refs/`, and otherwise prefixes it with
`refs/heads/`. -/
theorem C6_qualified_conversion (s : Str) :
    (Qualified.fromRefLike s = s ↔ List.isPrefixOf (strList "refs/") s = true)
  ∧ (List.isPrefixOf (strList "refs/") s = false →
      Qualified.fromRefLike s = strList "refs/heads/" ++ s) := by
  cases h : List.isPrefixOf (strList "refs/") s with
  | true =>
    refine ⟨⟨fun _ => rfl, fun _ => ?_⟩, fun hfalse => ?_⟩
    · rw [Qualified.fromRefLike, if_pos h]
    · exact Bool.noConfusion hfalse
  | false =>
    have hq : Qualified.fromRefLike s = strList "refs/heads/" ++ s := by
      rw [Qualified.fromRefLike, if_neg (by simp [h])]
    refine ⟨⟨fun heq => ?_, fun htrue => ?_⟩, fun _ => hq⟩
    · exfalso
      rw [hq] at heq
      have hlen := congrArg List.length heq
      rw [List.length_append] at hlen
      have h11 : (strList "refs/heads/").length = 11 := by decide
      omega
    · exact Bool.noConfusion htrue

/-- C6 witness: `laplace` becomes `refs/heads/laplace`, while `refs/heads/pu`
and `refs/tags/v6.6.6` are unchanged. -/
theorem C6_qualified_conversion_witness :
    Qualified.fromRefLike (strList "laplace") = strList "refs/heads/" ++ strList "laplace"
  ∧ Qualified.fromRefLike (strList "refs/heads/pu") = strList "refs/heads/pu"
  ∧ Qualified.fromRefLike (strList "refs/tags/v6.6.6") = strList "refs/tags/v6.6.6" :=
  ⟨(C6_qualified_conversion (strList "laplace")).2 (by decide),
   (C6_qualified_conversion (strList "refs/heads/pu")).1.mpr (by decide),
   (C6_qualified_conversion (strList "refs/tags/v6.6.6")).1.mpr (by decide)⟩

/-- C7: for a valid SingleName starting with the literal `refs/` — i.e. of
the shape `refs/<seg>/<rest>` with `<seg>` slash-free — the conversion to
CollapsedName drops exactly the first two `/`-delimited segments and keeps
the remainder, and a name not starting with `refs/` is kept unchanged:
`refs/heads/next` becomes `next`, `refs/remotes/origin/it` becomes
`origin/it`, `mistress` stays `mistress`. -/
theorem C7_collapse_drops_two (seg rest : Str) (h : slash ∉ seg) :
    OneLevel.fromRefLike (strList "refs/" ++ (seg ++ slash :: rest)) = rest
  ∧ (∀ s : Str, List.isPrefixOf (strList "refs/") s = false →
      OneLevel.fromRefLike s = s)
  ∧ OneLevel.fromRefLike (strList "refs/heads/next") = strList "next"
  ∧ OneLevel.fromRefLike (strList "refs/remotes/origin/it") = strList "origin/it"
  ∧ OneLevel.fromRefLike (strList "mistress") = strList "mistress" :=
  ⟨collapse_refs_seg seg rest h,
   fun s hs => collapse_unchanged s hs,
   by decide, by decide, by decide⟩

/-- C7 witness at `seg = remotes`, `rest = origin/it`. -/
theorem C7_collapse_drops_two_witness :
    OneLevel.fromRefLike (strList "refs/" ++ (strList "remotes" ++ slash :: strList "origin/it"))
      = strList "origin/it"
    ∧ OneLevel.fromRefLike (strList "HEAD") = strList "HEAD" := by
  have h := C7_collapse_drops_two (strList "remotes") (strList "origin/it") (by decide)
  exact ⟨h.1, h.2.1 (strList "HEAD") (by decide)⟩

/-- C3: rendering a cardinality-one ScopedReference produces the literal
`refs`, then `namespaces/<namespace>/refs` when a namespace is present, then
`remotes/<remote>` when a remote is present, then the rendered category, then
the collapsed form of the name; in particular a name already carrying a
`refs/<category>/` prefix is flattened, and the two concrete examples of the
claim render as stated. -/
theorem C3_render_one :
    (∀ (ns rem : Option Str) (cat : RefsCategory) (name : Str),
      Reference.toRefLike ⟨rem, cat, name, ns⟩ =
        strList "refs"
          ++ (match ns with
              | some n =>
                slash :: (strList "namespaces" ++ slash :: (n ++ slash :: strList "refs"))
              | none => [])
          ++ (match rem with
              | some r => slash :: (strList "remotes" ++ slash :: r)
              | none => [])
          ++ slash :: (cat.render ++ slash :: OneLevel.fromRefLike name))
  ∧ Reference.toRefLike ⟨none, RefsCategory.heads, strList "feature/x", none⟩
      = strList "refs/heads/feature/x"
  ∧ Reference.toRefLike
        ⟨some (strList "peer"), RefsCategory.heads, strList "feature/x",
          some (strList "ns")⟩
      = strList "refs/namespaces/ns/refs/remotes/peer/heads/feature/x"
  ∧ Reference.toRefLike
        ⟨none, RefsCategory.heads, strList "refs/heads/feature/x", none⟩
      = strList "refs/heads/feature/x" := by
  refine ⟨fun ns rem cat name => ?_, by decide, by decide, by decide⟩
  cases ns <;> cases rem <;>
    simp [Reference.toRefLike, RefLike.join, List.append_assoc]

/-- C5: on a QualifiedName `refs/<p>`, `from_qualified` strips the leading
`refs` segment; when at least two segments remain the first is returned as
the category and the rest re-joined as the CollapsedName, and when exactly
one segment remains it is the whole CollapsedName with the category absent. -/
theorem C5_from_qualified (p : Str) :
    (∀ x, splitOnSlash p = [x] →
      OneLevel.fromQualified (strList "refs/" ++ p) = (x, none))
  ∧ (∀ x y t, splitOnSlash p = x :: y :: t →
      OneLevel.fromQualified (strList "refs/" ++ p) = (joinSlash (y :: t), some x)) := by
  have hstrip : stripPre (strList "refs/") (strList "refs/" ++ p) = some p :=
    stripPre_append _ _
  constructor
  · intro x hx
    have hmem : x ∈ splitOnSlash p := by
      rw [hx]
      exact List.mem_singleton_self x
    have hnoslash : slash ∉ x := splitOnSlash_mem_no_slash p x hmem
    have hnp : List.isPrefixOf (strList "refs/") x = false :=
      not_isPrefixOf_refs_of_no_slash hnoslash
    rw [OneLevel.fromQualified]
    simp only [hstrip, Option.getD_some, hx]
    rw [collapse_unchanged x hnp]
  · intro x y t hx
    rw [OneLevel.fromQualified]
    simp only [hstrip, Option.getD_some, hx]

/-- C5 witness: `refs/tags/grace` yields (`grace`, category `tags`) and
`refs/HEAD` yields (`HEAD`, category absent). -/
theorem C5_from_qualified_witness :
    OneLevel.fromQualified (strList "refs/" ++ strList "tags/grace")
      = (strList "grace", some (strList "tags"))
  ∧ OneLevel.fromQualified (strList "refs/" ++ strList "HEAD")
      = (strList "HEAD", none) :=
  ⟨(C5_from_qualified (strList "tags/grace")).2 (strList "tags") (strList "grace")
      [] (by decide),
   (C5_from_qualified (strList "HEAD")).1 (strList "HEAD") (by decide)⟩

/-- C8: for every valid SingleName `b` and every valid (hence non-empty)
SingleName `s`, joining `s` onto `b` and then stripping prefix `b` succeeds
and yields exactly `s`. -/
theorem C8_join_strip_roundtrip (b s : Str)
    (hb : validRefLike b = true) (hs : validRefLike s = true) :
    RefLike.stripPfx (RefLike.join b s) b = Except.ok s := by
  have hlast : b.getLast? ≠ some slash := valid_last_ne_slash hb
  have hne : s ≠ [] := valid_ne_nil hs
  have hsuf : stripSufSlash b = b := by
    rw [stripSufSlash, if_neg hlast]
  have hself : RefLike.join b s = (b ++ [slash]) ++ s := by
    rw [RefLike.join, List.append_assoc]
    rfl
  rw [RefLike.stripPfx]
  simp only [hsuf, hself, stripPre_append, if_neg hne]

/-- C8 witness at `b = refs/heads`, `s = main`. -/
theorem C8_join_strip_roundtrip_witness :
    RefLike.stripPfx (RefLike.join (strList "refs/heads") (strList "main"))
      (strList "refs/heads") = Except.ok (strList "main") :=
  C8_join_strip_roundtrip (strList "refs/heads") (strList "main")
    (by decide) (by decide)

/-- C9: `SymbolicRef::create` first resolves the target; if that fails the
error is returned with no write performed (the call trace holds only the
read-only resolve query); if it succeeds, the engine calls happen in the
order resolve target, ensure source reflog, create symbolic reference —
and a failing reflog call likewise stops before the symbolic write. -/
theorem C9_symbolic_create_order {S T : Type} (sr : SymbolicRef S T)
    (intoS : S → Str) (intoT : T → Str) (repo : Repo) :
    (∀ e, repo.refnameToId (intoT sr.target) = Except.error e →
      SymbolicRef.create sr intoS intoT repo
        = ([RepoOp.resolve (intoT sr.target)], Except.error e))
  ∧ (∀ oid, repo.refnameToId (intoT sr.target) = Except.ok oid →
      ∀ u, repo.referenceEnsureLog (intoS sr.source) = Except.ok u →
        SymbolicRef.create sr intoS intoT repo
          = ([RepoOp.resolve (intoT sr.target), RepoOp.ensureLog (intoS sr.source),
              RepoOp.symbolic (intoS sr.source) (intoT sr.target) sr.force
                (symbolicReflogMsg (intoS sr.source) (intoT sr.target))],
             repo.referenceSymbolic (intoS sr.source) (intoT sr.target) sr.force
               (symbolicReflogMsg (intoS sr.source) (intoT sr.target))))
  ∧ (∀ oid, repo.refnameToId (intoT sr.target) = Except.ok oid →
      ∀ e, repo.referenceEnsureLog (intoS sr.source) = Except.error e →
        SymbolicRef.create sr intoS intoT repo
          = ([RepoOp.resolve (intoT sr.target), RepoOp.ensureLog (intoS sr.source)],
             Except.error e)) := by
  refine ⟨fun e he => ?_, fun oid hoid u hu => ?_, fun oid hoid e he => ?_⟩
  · rw [SymbolicRef.create]
    simp only [he]
  · rw [SymbolicRef.create]
    simp only [hoid, hu]
  · rw [SymbolicRef.create]
    simp only [hoid, he]

/-- A repository engine whose target resolution always fails, for the C9
witness. -/
def repoNoTarget : Repo :=
  ⟨fun _ => Except.error GitErr.notFound, fun _ => Except.ok (),
    fun _ _ _ _ => Except.ok []⟩

/-- A repository engine on which every call succeeds, for the C9 witness. -/
def repoAllOk : Repo :=
  ⟨fun _ => Except.ok 1, fun _ => Except.ok (), fun s _ _ _ => Except.ok s⟩

/-- C9 witness: on an engine without the target, create performs only the
resolve query and returns its error; on an engine where everything succeeds,
the full ordered trace is produced. -/
theorem C9_symbolic_create_order_witness :
    SymbolicRef.create
        (⟨strList "refs/heads/a", strList "refs/heads/b", false⟩ : SymbolicRef Str Str)
        id id repoNoTarget
      = ([RepoOp.resolve (strList "refs/heads/b")], Except.error GitErr.notFound)
  ∧ SymbolicRef.create
        (⟨strList "refs/heads/a", strList "refs/heads/b", false⟩ : SymbolicRef Str Str)
        id id repoAllOk
      = ([RepoOp.resolve (strList "refs/heads/b"),
          RepoOp.ensureLog (strList "refs/heads/a"),
          RepoOp.symbolic (strList "refs/heads/a") (strList "refs/heads/b") false
            (symbolicReflogMsg (strList "refs/heads/a") (strList "refs/heads/b"))],
         Except.ok (strList "refs/heads/a")) :=
  ⟨(C9_symbolic_create_order
      (⟨strList "refs/heads/a", strList "refs/heads/b", false⟩ : SymbolicRef Str Str)
      id id repoNoTarget).1 GitErr.notFound rfl,
   (C9_symbolic_create_order
      (⟨strList "refs/heads/a", strList "refs/heads/b", false⟩ : SymbolicRef Str Str)
      id id repoAllOk).2.1 1 rfl () rfl⟩

/-- C10: each builder method of the generic Reference changes only its own
field — with_remote/set_remote replace the remote and keep category, name and
namespace; with_namespace replaces the namespace and keeps the rest;
with_name/set_name replace the name and keep the rest. -/
theorem C10_builder_frame :
    ∀ (N R C N2 : Type) (r : Reference N R C) (rem : Option R)
      (ns : Option N2) (nm : C),
      ((r.with_remote rem).category = r.category
        ∧ (r.with_remote rem).name = r.name
        ∧ (r.with_remote rem).nspace = r.nspace
        ∧ (r.with_remote rem).remote = rem)
    ∧ ((r.set_remote rem).category = r.category
        ∧ (r.set_remote rem).name = r.name
        ∧ (r.set_remote rem).nspace = r.nspace
        ∧ (r.set_remote rem).remote = rem)
    ∧ ((r.with_namespace ns).category = r.category
        ∧ (r.with_namespace ns).name = r.name
        ∧ (r.with_namespace ns).remote = r.remote
        ∧ (r.with_namespace ns).nspace = ns)
    ∧ ((r.with_name nm).category = r.category
        ∧ (r.with_name nm).remote = r.remote
        ∧ (r.with_name nm).nspace = r.nspace
        ∧ (r.with_name nm).name = nm)
    ∧ ((r.set_name nm).category = r.category
        ∧ (r.set_name nm).remote = r.remote
        ∧ (r.set_name nm).nspace = r.nspace
        ∧ (r.set_name nm).name = nm) :=
  fun _ _ _ _ _ _ _ _ =>
    ⟨⟨rfl, rfl, rfl, rfl⟩, ⟨rfl, rfl, rfl, rfl⟩, ⟨rfl, rfl, rfl, rfl⟩,
      ⟨rfl, rfl, rfl, rfl⟩, ⟨rfl, rfl, rfl, rfl⟩⟩
